import Mathlib

/-
Verification of the clickstream preprocessing transform
(clickstream_preprocess.py): a shallow embedding of the pure core of the
script — the capped thinning sampler `reservoir_extend`, the dual encoder
(`add_end_symbol`, `truncate_or_pad`), and the single pass `preprocess`
that builds the two client sequences and the relative-frequency table —
together with theorems about its invariants and error behaviour.

Modelling conventions:
- Python's `collections.Counter` is embedded as an insertion-ordered
  association list `List (String × ℤ)` with `Counter.__getitem__`
  defaulting to 0 without inserting (`cGet`) and item assignment
  inserting or updating in place (`cSet`); `m[x] += d` is `cAdd`.
- The pseudo-random stream produced by `random.Random(seed)` is embedded
  as a function `rng : ℕ → ℚ` together with a cursor `pos : ℕ`;
  `rng.random()` reads `rng pos` and advances the cursor.  Draws of
  `random.random()` lie in [0,1); the embedding leaves the stream
  unconstrained, which only widens the set of behaviours covered.
- Python floats are embedded as rationals ℚ.
- Exceptions (`int()` on a malformed field raising ValueError, and float
  division by zero raising ZeroDivisionError) are embedded with `Except`.
-/

namespace Clickstream

/-- Exceptions the pass can raise: `int(cnt)` on a non-integer string
raises ValueError; `c / total_clients` with `total_clients = 0` raises
ZeroDivisionError. -/
inductive PyErr where
  | valueError
  | zeroDivisionError
deriving DecidableEq

instance {ε α : Type} [DecidableEq ε] [DecidableEq α] : DecidableEq (Except ε α)
  | .error e, .error f => decidable_of_iff (e = f) (by simp)
  | .error _, .ok _ => isFalse (by simp)
  | .ok _, .error _ => isFalse (by simp)
  | .ok a, .ok b => decidable_of_iff (a = b) (by simp)

/-- Embedding of `collections.Counter` with string keys: an
insertion-ordered association list. -/
abbrev Counter := List (String × ℤ)

/-- Counter lookup, `container[elem]`: missing keys read as 0 and are not
inserted (Counter.__missing__). -/
def cGet : Counter → String → ℤ
  | [], _ => 0
  | (y, v) :: rest, x => if y = x then v else cGet rest x

/-- Counter item assignment, `container[elem] = v`: update in place if the
key is present, else append (dicts are insertion-ordered). -/
def cSet : Counter → String → ℤ → Counter
  | [], x, v => [(x, v)]
  | (y, w) :: rest, x, v => if y = x then (x, v) :: rest else (y, w) :: cSet rest x v

/-- Augmented assignment `container[elem] += d` (also `-= 1` with d = -1):
read with default 0, then store. -/
def cAdd (m : Counter) (x : String) (d : ℤ) : Counter :=
  cSet m x (cGet m x + d)

/-- Sum of the stored values, `sum(container.values())`. -/
def sumV (m : Counter) : ℤ :=
  (m.map Prod.snd).sum

/-- The filler character used by `truncate_or_pad` (`ljust(L, '$')` in the
source). -/
def pad_symbol : Char := '$'

/-- The terminator character appended by `add_end_symbol` (`s + '$'` in
the source). -/
def end_symbol : Char := '$'

/-- Embedding of `truncate_or_pad(s, L) = s[:L].ljust(L, '$')`: keep the
first L characters, then right-pad with the filler to exactly length L. -/
def truncate_or_pad (s : String) (L : ℕ) : String :=
  String.mk (s.toList.take L ++ List.replicate (L - (s.toList.take L).length) pad_symbol)

/-- Embedding of `add_end_symbol(s) = s + '$'`. -/
def add_end_symbol (s : String) : String :=
  s.push end_symbol

/-- Embedding of `int(s)` for the count field: an optional single sign
followed by a non-empty run of decimal digits parses to its value; any
other string raises ValueError (modelled as `none`).  (Python's `int`
additionally strips whitespace and allows `_` separators; those inputs do
not occur in the claims considered here.) -/
def pyInt (s : String) : Option ℤ :=
  let p : ℤ × List Char :=
    match s.toList with
    | '-' :: rest => (-1, rest)
    | '+' :: rest => (1, rest)
    | cs => (1, cs)
  if p.2 ≠ [] ∧ p.2.all Char.isDigit then
    some (p.1 * p.2.foldl (fun acc c => 10 * acc + ((c.toNat : ℤ) - 48)) 0)
  else
    none

/-- Embedding of `reservoir_extend(container, elem, k, rng)` from the
source:

    while container[elem] >= k:
        if rng.random() < k / (k + 1):
            return False
        container[elem] -= 1
    container[elem] += 1
    return True

The Boolean is the return value; the updated counter and random-stream
cursor, mutated in place in Python, are threaded explicitly. -/
def reservoir_extend (container : Counter) (elem : String) (k : ℤ)
    (rng : ℕ → ℚ) (pos : ℕ) : Bool × Counter × ℕ :=
  if h : k ≤ cGet container elem then
    if rng pos < (k : ℚ) / ((k : ℚ) + 1) then
      (false, container, pos + 1)
    else
      reservoir_extend (cAdd container elem (-1)) elem k rng (pos + 1)
  else
    (true, cAdd container elem 1, pos)
termination_by (cGet container elem - k + 1).toNat
decreasing_by
  have key : ∀ (m : Counter) (x : String) (v : ℤ), cGet (cSet m x v) x = v := by
    intro m x v
    induction m with
    | nil => simp [cGet, cSet]
    | cons p rest ih =>
      by_cases hx : p.1 = x
      · simp [cGet, cSet, hx]
      · simp [cGet, cSet, hx, ih]
  simp only [cAdd, key]
  omega

/-- Modelled from the spec (§4.2), per single occurrence request for
token t:

1. While `emission_counter[t] ≥ k`:
   a. with probability `k/(k+1)` — i.e. on a uniform draw below
      `k/(k+1)` — reject the occurrence with no state change and stop;
   b. otherwise decrement `emission_counter[t]` by 1 and re-check the
      while-condition.
2. When the loop exits because `emission_counter[t] < k`: increment
   `emission_counter[t]` by 1 and accept (return True). -/
def specThinner (counter : Counter) (t : String) (k : ℤ)
    (rng : ℕ → ℚ) (pos : ℕ) : Bool × Counter × ℕ :=
  if h : k ≤ cGet counter t then
    if rng pos < (k : ℚ) / ((k : ℚ) + 1) then
      (false, counter, pos + 1)
    else
      specThinner (cAdd counter t (-1)) t k rng (pos + 1)
  else
    (true, cAdd counter t 1, pos)
termination_by (cGet counter t - k + 1).toNat
decreasing_by
  have key : ∀ (m : Counter) (x : String) (v : ℤ), cGet (cSet m x v) x = v := by
    intro m x v
    induction m with
    | nil => simp [cGet, cSet]
    | cons p rest ih =>
      by_cases hx : p.1 = x
      · simp [cGet, cSet, hx]
      · simp [cGet, cSet, hx, ih]
  simp only [cAdd, key]
  omega

/-- Configuration of `preprocess`: the fixed width `max_len`, the cap
(`cap = 0` means capping disabled, since `if cap:` tests truthiness), and
the kind filter `keep_type` (`""` means no filter, by the same truthiness
test). -/
structure Config where
  max_len : ℕ
  cap : ℤ
  keep_type : String
deriving DecidableEq

/-- Mutable state of the pass: the emission counter `freq`, the two
client sequences, and the random-stream cursor. -/
structure PassState where
  freq : Counter
  clients_triehh : List String
  clients_sfp : List String
  pos : ℕ
deriving DecidableEq

/-- The state at the start of the pass. -/
def initState : PassState :=
  ⟨[], [], [], 0⟩

/-- The per-row inner loop `for _ in range(cnt)` of `preprocess` when
capping is enabled: one `reservoir_extend` decision per logical
occurrence; on acceptance both encodings of the token are appended. -/
def occLoop (cfg : Config) (rng : ℕ → ℚ) (curr : String) :
    ℕ → PassState → PassState
  | 0, st => st
  | n + 1, st =>
    let r := reservoir_extend st.freq curr cfg.cap rng st.pos
    let st' : PassState :=
      if r.1 then
        ⟨r.2.1, st.clients_triehh ++ [add_end_symbol curr],
          st.clients_sfp ++ [truncate_or_pad curr cfg.max_len], r.2.2⟩
      else
        ⟨r.2.1, st.clients_triehh, st.clients_sfp, r.2.2⟩
    occLoop cfg rng curr n st'

/-- Processing of one raw record in the loop body of `preprocess`:

    if len(row) != 4: continue
    prev, curr, typ, cnt = row
    if keep_type and typ != keep_type: continue
    cnt = int(cnt)
    if cap and cnt > cap: cnt = cap
    if cap: (reservoir loop)  else: (bulk extend)

`int(cnt)` failing aborts the whole pass with ValueError. -/
def processRow (cfg : Config) (rng : ℕ → ℚ) (row : List String)
    (st : PassState) : Except PyErr PassState :=
  match row with
  | [_prev, curr, typ, cntS] =>
    if cfg.keep_type ≠ "" ∧ typ ≠ cfg.keep_type then
      .ok st
    else
      match pyInt cntS with
      | none => .error .valueError
      | some cnt0 =>
        let cnt : ℤ := if cfg.cap ≠ 0 ∧ cfg.cap < cnt0 then cfg.cap else cnt0
        if cfg.cap ≠ 0 then
          .ok (occLoop cfg rng curr cnt.toNat st)
        else
          .ok ⟨cAdd st.freq curr cnt,
            st.clients_triehh ++ List.replicate cnt.toNat (add_end_symbol curr),
            st.clients_sfp ++ List.replicate cnt.toNat (truncate_or_pad curr cfg.max_len),
            st.pos⟩
  | _ => .ok st

/-- The full pass over the record stream: `processRow` on each record in
order, aborting on the first exception. -/
def processRows (cfg : Config) (rng : ℕ → ℚ) :
    PassState → List (List String) → Except PyErr PassState
  | st, [] => .ok st
  | st, row :: rest =>
    match processRow cfg rng row st with
    | .error e => .error e
    | .ok st' => processRows cfg rng st' rest

/-- The in-memory artifacts `preprocess` produces: the emission counter
`freq`, the two client sequences, and the relative-frequency table
`rel_freq = {w: c / total_clients for w, c in freq.items()}` where
`total_clients = len(clients_triehh)`. -/
structure Output where
  freq : Counter
  clients_triehh : List String
  clients_sfp : List String
  rel_freq : List (String × ℚ)
deriving DecidableEq

/-- Embedding of `preprocess(path, max_len, cap, keep_type, seed)`: run
the pass over the (already split) records, then build the
relative-frequency table.  In Python, `c / total_clients` raises
ZeroDivisionError at the first item when `total_clients = 0` and `freq`
is non-empty; with `freq` empty the comprehension performs no division. -/
def preprocess (cfg : Config) (rng : ℕ → ℚ) (rows : List (List String)) :
    Except PyErr Output :=
  match processRows cfg rng initState rows with
  | .error e => .error e
  | .ok st =>
    let total : ℕ := st.clients_triehh.length
    if total = 0 ∧ st.freq ≠ [] then
      .error .zeroDivisionError
    else
      .ok ⟨st.freq, st.clients_triehh, st.clients_sfp,
        st.freq.map (fun p => (p.1, (p.2 : ℚ) / (total : ℚ)))⟩

/-- The contribution of one raw record to the exact cumulative count of
token t: its parsed count field if the record has exactly 4 fields, passes
the kind filter, and its current-state field equals t; otherwise 0. -/
def rowContrib (cfg : Config) (row : List String) (t : String) : ℤ :=
  match row with
  | [_prev, curr, typ, cntS] =>
    if cfg.keep_type ≠ "" ∧ typ ≠ cfg.keep_type then 0
    else if curr = t then ((pyInt cntS).getD 0) else 0
  | _ => 0

/-- The exact cumulative count for token t over a record stream: the sum,
over records with exactly 4 fields whose kind passes the filter and whose
current-state field equals t, of the parsed count field (0 when the count
does not parse; under a successful pass every surviving count parses). -/
def exactCount (cfg : Config) (rows : List (List String)) (t : String) : ℤ :=
  match rows with
  | [] => 0
  | row :: rest => rowContrib cfg row t + exactCount cfg rest t

/-- A 4-field record's count field parses to a nonnegative value (rows of
other shapes are unconstrained: they are skipped by the pass). -/
def rowCountNonneg (row : List String) : Prop :=
  match row with
  | [_prev, _curr, _typ, cntS] => 0 ≤ (pyInt cntS).getD 0
  | _ => True

instance (row : List String) : Decidable (rowCountNonneg row) := by
  unfold rowCountNonneg
  match row with
  | [_prev, _curr, _typ, cntS] => exact inferInstanceAs (Decidable (_ ≤ _))
  | [] => exact inferInstanceAs (Decidable True)
  | [_] => exact inferInstanceAs (Decidable True)
  | [_, _] => exact inferInstanceAs (Decidable True)
  | [_, _, _] => exact inferInstanceAs (Decidable True)
  | _ :: _ :: _ :: _ :: _ :: _ => exact inferInstanceAs (Decidable True)

/-- Sum of the values of the relative-frequency table. -/
def sumQ (m : List (String × ℚ)) : ℚ :=
  (m.map Prod.snd).sum

/-- Concrete random stream used by the closed-run theorems: every draw is
1/2. -/
def rngHalf : ℕ → ℚ := fun _ => 1/2

theorem cGet_cSet_self (m : Counter) (x : String) (v : ℤ) :
    cGet (cSet m x v) x = v := by
  induction m with
  | nil => simp [cGet, cSet]
  | cons p rest ih =>
    by_cases hx : p.1 = x
    · simp [cGet, cSet, hx]
    · simp [cGet, cSet, hx, ih]

theorem cGet_cSet_ne (m : Counter) (x y : String) (v : ℤ) (hxy : x ≠ y) :
    cGet (cSet m x v) y = cGet m y := by
  induction m with
  | nil => simp [cGet, cSet, hxy]
  | cons p rest ih =>
    by_cases hx : p.1 = x
    · subst hx
      simp [cGet, cSet, hxy]
    · simp [cGet, cSet, hx, ih]

theorem cGet_cAdd_self (m : Counter) (x : String) (d : ℤ) :
    cGet (cAdd m x d) x = cGet m x + d := by
  simp [cAdd, cGet_cSet_self]

theorem cGet_cAdd_ne (m : Counter) (x y : String) (d : ℤ) (hxy : x ≠ y) :
    cGet (cAdd m x d) y = cGet m y := by
  simp [cAdd, cGet_cSet_ne _ _ _ _ hxy]

theorem sumV_cAdd (m : Counter) (x : String) (d : ℤ) :
    sumV (cAdd m x d) = sumV m + d := by
  suffices h : ∀ (m : Counter) (v : ℤ), sumV (cSet m x v) = sumV m + v - cGet m x by
    rw [cAdd, h]
    ring
  intro m v
  induction m with
  | nil => simp [sumV, cSet, cGet]
  | cons p rest ih =>
    by_cases hx : p.1 = x
    · simp only [cSet, cGet, hx, if_pos]
      simp [sumV]
      ring
    · simp only [cSet, cGet, hx, if_neg, not_false_iff]
      simp only [sumV, List.map_cons, List.sum_cons] at ih ⊢
      omega

theorem reservoir_extend_accept (container : Counter) (elem : String) (k : ℤ)
    (rng : ℕ → ℚ) (pos : ℕ) (h : cGet container elem < k) :
    reservoir_extend container elem k rng pos = (true, cAdd container elem 1, pos) := by
  unfold reservoir_extend
  simp [not_le.mpr h]

theorem reservoir_extend_reject (container : Counter) (elem : String) (k : ℤ)
    (rng : ℕ → ℚ) (pos : ℕ) (h : k ≤ cGet container elem)
    (hd : rng pos < (k : ℚ) / ((k : ℚ) + 1)) :
    reservoir_extend container elem k rng pos = (false, container, pos + 1) := by
  unfold reservoir_extend
  simp [h, hd]

theorem reservoir_extend_step (container : Counter) (elem : String) (k : ℤ)
    (rng : ℕ → ℚ) (pos : ℕ) (h : k ≤ cGet container elem)
    (hd : ¬ rng pos < (k : ℚ) / ((k : ℚ) + 1)) :
    reservoir_extend container elem k rng pos =
      reservoir_extend (cAdd container elem (-1)) elem k rng (pos + 1) := by
  conv_lhs => unfold reservoir_extend
  simp [h, hd]

theorem specThinner_accept (counter : Counter) (t : String) (k : ℤ)
    (rng : ℕ → ℚ) (pos : ℕ) (h : cGet counter t < k) :
    specThinner counter t k rng pos = (true, cAdd counter t 1, pos) := by
  unfold specThinner
  simp [not_le.mpr h]

theorem specThinner_reject (counter : Counter) (t : String) (k : ℤ)
    (rng : ℕ → ℚ) (pos : ℕ) (h : k ≤ cGet counter t)
    (hd : rng pos < (k : ℚ) / ((k : ℚ) + 1)) :
    specThinner counter t k rng pos = (false, counter, pos + 1) := by
  unfold specThinner
  simp [h, hd]

theorem specThinner_step (counter : Counter) (t : String) (k : ℤ)
    (rng : ℕ → ℚ) (pos : ℕ) (h : k ≤ cGet counter t)
    (hd : ¬ rng pos < (k : ℚ) / ((k : ℚ) + 1)) :
    specThinner counter t k rng pos =
      specThinner (cAdd counter t (-1)) t k rng (pos + 1) := by
  conv_lhs => unfold specThinner
  simp [h, hd]

/-- One sampler call adds at most 1 to the sum of counter values when it
accepts, and never increases it when it rejects. -/
theorem reservoir_extend_sumV (container : Counter) (elem : String) (k : ℤ)
    (rng : ℕ → ℚ) (pos : ℕ) :
    sumV (reservoir_extend container elem k rng pos).2.1 ≤
      sumV container + (if (reservoir_extend container elem k rng pos).1 then 1 else 0) := by
  induction container, elem, k, rng, pos using reservoir_extend.induct with
  | case1 container elem k rng pos h hd =>
    rw [reservoir_extend_reject container elem k rng pos h hd]
    simp
  | case2 container elem k rng pos h hd ih =>
    rw [reservoir_extend_step container elem k rng pos h hd]
    calc sumV (reservoir_extend (cAdd container elem (-1)) elem k rng (pos + 1)).2.1
        ≤ sumV (cAdd container elem (-1)) +
            (if (reservoir_extend (cAdd container elem (-1)) elem k rng (pos + 1)).1
              then 1 else 0) := ih
      _ ≤ sumV container +
            (if (reservoir_extend (cAdd container elem (-1)) elem k rng (pos + 1)).1
              then 1 else 0) := by
          rw [sumV_cAdd]
          omega
  | case3 container elem k rng pos h =>
    rw [reservoir_extend_accept container elem k rng pos (not_le.mp h)]
    simp [sumV_cAdd]

/-- One sampler call keeps every counter value at or below k, provided
every value was at or below k before the call. -/
theorem reservoir_extend_le (container : Counter) (elem : String) (k : ℤ)
    (rng : ℕ → ℚ) (pos : ℕ) (hall : ∀ t, cGet container t ≤ k) :
    ∀ t, cGet (reservoir_extend container elem k rng pos).2.1 t ≤ k := by
  induction container, elem, k, rng, pos using reservoir_extend.induct with
  | case1 container elem k rng pos h hd =>
    rw [reservoir_extend_reject container elem k rng pos h hd]
    exact hall
  | case2 container elem k rng pos h hd ih =>
    rw [reservoir_extend_step container elem k rng pos h hd]
    refine ih ?_
    intro t
    by_cases ht : elem = t
    · subst ht
      rw [cGet_cAdd_self]
      have := hall elem
      omega
    · rw [cGet_cAdd_ne _ _ _ _ ht]
      exact hall t
  | case3 container elem k rng pos h =>
    rw [reservoir_extend_accept container elem k rng pos (not_le.mp h)]
    intro t
    by_cases ht : elem = t
    · subst ht
      rw [cGet_cAdd_self]
      omega
    · rw [cGet_cAdd_ne _ _ _ _ ht]
      exact hall t

/-- The per-row occurrence loop keeps the two client sequences aligned
and keeps the counter-value sum at or below the length of sequence A. -/
theorem occLoop_inv (cfg : Config) (rng : ℕ → ℚ) (curr : String) :
    ∀ (n : ℕ) (st : PassState),
      st.clients_triehh.length = st.clients_sfp.length →
      sumV st.freq ≤ st.clients_triehh.length →
      (occLoop cfg rng curr n st).clients_triehh.length =
          (occLoop cfg rng curr n st).clients_sfp.length ∧
        sumV (occLoop cfg rng curr n st).freq ≤
          (occLoop cfg rng curr n st).clients_triehh.length := by
  intro n
  induction n with
  | zero =>
    intro st h1 h2
    exact ⟨h1, h2⟩
  | succ n ih =>
    intro st h1 h2
    rw [occLoop]
    have hs := reservoir_extend_sumV st.freq curr cfg.cap rng st.pos
    by_cases hr : (reservoir_extend st.freq curr cfg.cap rng st.pos).1
    · simp only [hr, if_true, if_pos]
      refine ih _ ?_ ?_
      · simp [h1]
      · simp only [hr, if_true] at hs
        simp only [List.length_append, List.length_cons, List.length_nil]
        omega
    · simp only [hr, if_false, Bool.false_eq_true, if_neg, not_false_iff]
      refine ih _ h1 ?_
      simp only [hr, Bool.false_eq_true, if_false] at hs
      dsimp only
      omega

/-- The per-row occurrence loop keeps every counter value at or below the
cap. -/
theorem occLoop_le (cfg : Config) (rng : ℕ → ℚ) (curr : String) :
    ∀ (n : ℕ) (st : PassState),
      (∀ t, cGet st.freq t ≤ cfg.cap) →
      ∀ t, cGet (occLoop cfg rng curr n st).freq t ≤ cfg.cap := by
  intro n
  induction n with
  | zero =>
    intro st h
    exact h
  | succ n ih =>
    intro st h
    rw [occLoop]
    by_cases hr : (reservoir_extend st.freq curr cfg.cap rng st.pos).1
    · simp only [hr, if_true, if_pos]
      exact ih _ (reservoir_extend_le st.freq curr cfg.cap rng st.pos h)
    · simp only [hr, Bool.false_eq_true, if_false, if_neg, not_false_iff]
      exact ih _ (reservoir_extend_le st.freq curr cfg.cap rng st.pos h)

/-- A record either has exactly 4 fields or is skipped unchanged. -/
theorem processRow_cases (cfg : Config) (rng : ℕ → ℚ) (row : List String)
    (st : PassState) :
    processRow cfg rng row st = .ok st ∨
      ∃ a b c d, row = [a, b, c, d] := by
  match row with
  | [a, b, c, d] => exact Or.inr ⟨a, b, c, d, rfl⟩
  | [] => exact Or.inl rfl
  | [_] => exact Or.inl rfl
  | [_, _] => exact Or.inl rfl
  | [_, _, _] => exact Or.inl rfl
  | _ :: _ :: _ :: _ :: _ :: _ => exact Or.inl rfl

/-- Processing one record preserves the alignment of the two client
sequences and the bound of the counter-value sum by the emitted count. -/
theorem processRow_inv (cfg : Config) (rng : ℕ → ℚ) (row : List String)
    (st st' : PassState) (h : processRow cfg rng row st = .ok st')
    (h1 : st.clients_triehh.length = st.clients_sfp.length)
    (h2 : sumV st.freq ≤ st.clients_triehh.length) :
    st'.clients_triehh.length = st'.clients_sfp.length ∧
      sumV st'.freq ≤ st'.clients_triehh.length := by
  rcases processRow_cases cfg rng row st with hskip | ⟨a, b, c, d, rfl⟩
  · rw [hskip] at h
    injection h with h
    subst h
    exact ⟨h1, h2⟩
  · simp only [processRow] at h
    by_cases hfil : cfg.keep_type ≠ "" ∧ c ≠ cfg.keep_type
    · rw [if_pos hfil] at h
      injection h with h
      subst h
      exact ⟨h1, h2⟩
    · rw [if_neg hfil] at h
      cases hp : pyInt d with
      | none => rw [hp] at h; exact absurd h (by simp)
      | some cnt0 =>
        rw [hp] at h
        dsimp only at h
        by_cases hcap : cfg.cap ≠ 0
        · rw [if_pos hcap] at h
          injection h with h
          subst h
          exact occLoop_inv cfg rng b _ st h1 h2
        · rw [if_neg hcap] at h
          injection h with h
          subst h
          push_neg at hcap
          constructor
          · simp [h1]
          · simp only [List.length_append, List.length_replicate, sumV_cAdd,
              Nat.cast_add]
            have := Int.self_le_toNat (if cfg.cap ≠ 0 ∧ cfg.cap < cnt0 then cfg.cap else cnt0)
            omega

/-- The full pass preserves the alignment and the counter-sum bound. -/
theorem processRows_inv (cfg : Config) (rng : ℕ → ℚ) :
    ∀ (rows : List (List String)) (st st' : PassState),
      processRows cfg rng st rows = .ok st' →
      st.clients_triehh.length = st.clients_sfp.length →
      sumV st.freq ≤ st.clients_triehh.length →
      st'.clients_triehh.length = st'.clients_sfp.length ∧
        sumV st'.freq ≤ st'.clients_triehh.length := by
  intro rows
  induction rows with
  | nil =>
    intro st st' h h1 h2
    injection h with h
    subst h
    exact ⟨h1, h2⟩
  | cons row rest ih =>
    intro st st' h h1 h2
    rw [processRows] at h
    cases hrow : processRow cfg rng row st with
    | error e => rw [hrow] at h; exact absurd h (by simp)
    | ok st1 =>
      rw [hrow] at h
      have hmid := processRow_inv cfg rng row st st1 hrow h1 h2
      exact ih st1 st' h hmid.1 hmid.2

/-- Processing one record keeps every counter value at or below a
positive cap. -/
theorem processRow_le (cfg : Config) (rng : ℕ → ℚ) (row : List String)
    (st st' : PassState) (hpos : 0 < cfg.cap)
    (h : processRow cfg rng row st = .ok st')
    (hall : ∀ t, cGet st.freq t ≤ cfg.cap) :
    ∀ t, cGet st'.freq t ≤ cfg.cap := by
  rcases processRow_cases cfg rng row st with hskip | ⟨a, b, c, d, rfl⟩
  · rw [hskip] at h
    injection h with h
    subst h
    exact hall
  · simp only [processRow] at h
    by_cases hfil : cfg.keep_type ≠ "" ∧ c ≠ cfg.keep_type
    · rw [if_pos hfil] at h
      injection h with h
      subst h
      exact hall
    · rw [if_neg hfil] at h
      cases hp : pyInt d with
      | none => rw [hp] at h; exact absurd h (by simp)
      | some cnt0 =>
        rw [hp] at h
        dsimp only at h
        have hcap : cfg.cap ≠ 0 := by omega
        rw [if_pos hcap] at h
        injection h with h
        subst h
        exact occLoop_le cfg rng b _ st hall

/-- The full pass keeps every counter value at or below a positive cap. -/
theorem processRows_le (cfg : Config) (rng : ℕ → ℚ) (hpos : 0 < cfg.cap) :
    ∀ (rows : List (List String)) (st st' : PassState),
      processRows cfg rng st rows = .ok st' →
      (∀ t, cGet st.freq t ≤ cfg.cap) →
      ∀ t, cGet st'.freq t ≤ cfg.cap := by
  intro rows
  induction rows with
  | nil =>
    intro st st' h hall
    injection h with h
    subst h
    exact hall
  | cons row rest ih =>
    intro st st' h hall
    rw [processRows] at h
    cases hrow : processRow cfg rng row st with
    | error e => rw [hrow] at h; exact absurd h (by simp)
    | ok st1 =>
      rw [hrow] at h
      exact ih st1 st' h (processRow_le cfg rng row st st1 hpos hrow hall)

/-- With capping disabled, one record adds exactly its surviving parsed
count to each token's counter value. -/
theorem processRow_exact (cfg : Config) (rng : ℕ → ℚ) (row : List String)
    (st st' : PassState) (hcap0 : cfg.cap = 0)
    (h : processRow cfg rng row st = .ok st') :
    ∀ t, cGet st'.freq t = cGet st.freq t + rowContrib cfg row t := by
  rcases row with _ | ⟨a, _ | ⟨b, _ | ⟨c, _ | ⟨d, _ | ⟨e, row⟩⟩⟩⟩⟩
  all_goals
    first
    | (injection h with h
       subst h
       intro t
       simp [rowContrib])
    | skip
  simp only [processRow] at h
  by_cases hfil : cfg.keep_type ≠ "" ∧ c ≠ cfg.keep_type
  · rw [if_pos hfil] at h
    injection h with h
    subst h
    intro t
    simp [rowContrib, hfil]
  · rw [if_neg hfil] at h
    cases hp : pyInt d with
    | none => rw [hp] at h; exact absurd h (by simp)
    | some cnt0 =>
      rw [hp] at h
      dsimp only at h
      have hcap : ¬ cfg.cap ≠ 0 := by omega
      rw [if_neg hcap] at h
      injection h with h
      subst h
      intro t
      dsimp only
      have hclamp : ¬ (cfg.cap ≠ 0 ∧ cfg.cap < cnt0) := by
        intro hc
        exact hc.1 hcap0
      rw [if_neg hclamp]
      by_cases ht : b = t
      · subst ht
        rw [cGet_cAdd_self]
        simp [rowContrib, hfil, hp]
      · rw [cGet_cAdd_ne _ _ _ _ ht]
        simp [rowContrib, hfil, hp, ht]

/-- With capping disabled, the pass computes each token's exact
cumulative surviving count. -/
theorem processRows_exact (cfg : Config) (rng : ℕ → ℚ) (hcap0 : cfg.cap = 0) :
    ∀ (rows : List (List String)) (st st' : PassState),
      processRows cfg rng st rows = .ok st' →
      ∀ t, cGet st'.freq t = cGet st.freq t + exactCount cfg rows t := by
  intro rows
  induction rows with
  | nil =>
    intro st st' h t
    injection h with h
    subst h
    simp [exactCount]
  | cons row rest ih =>
    intro st st' h t
    rw [processRows] at h
    cases hrow : processRow cfg rng row st with
    | error e => rw [hrow] at h; exact absurd h (by simp)
    | ok st1 =>
      rw [hrow] at h
      have h1 := processRow_exact cfg rng row st st1 hcap0 hrow t
      have h2 := ih st1 st' h t
      rw [h2, h1, exactCount]
      ring

/-- With capping disabled and a nonnegative count, one record changes the
counter-value sum and the length of sequence A by the same amount. -/
theorem processRow_sum (cfg : Config) (rng : ℕ → ℚ) (row : List String)
    (st st' : PassState) (hcap0 : cfg.cap = 0) (hnn : rowCountNonneg row)
    (h : processRow cfg rng row st = .ok st') :
    sumV st'.freq - st'.clients_triehh.length =
      sumV st.freq - st.clients_triehh.length := by
  rcases row with _ | ⟨a, _ | ⟨b, _ | ⟨c, _ | ⟨d, _ | ⟨e, row⟩⟩⟩⟩⟩
  all_goals
    first
    | (injection h with h
       subst h
       rfl)
    | skip
  simp only [processRow] at h
  by_cases hfil : cfg.keep_type ≠ "" ∧ c ≠ cfg.keep_type
  · rw [if_pos hfil] at h
    injection h with h
    subst h
    rfl
  · rw [if_neg hfil] at h
    cases hp : pyInt d with
    | none => rw [hp] at h; exact absurd h (by simp)
    | some cnt0 =>
      rw [hp] at h
      dsimp only at h
      have hcap : ¬ cfg.cap ≠ 0 := by omega
      rw [if_neg hcap] at h
      injection h with h
      subst h
      have hclamp : ¬ (cfg.cap ≠ 0 ∧ cfg.cap < cnt0) := by
        intro hc
        exact hc.1 hcap0
      rw [if_neg hclamp] at *
      have hnn' : 0 ≤ cnt0 := by
        simpa [rowCountNonneg, hp] using hnn
      simp only [sumV_cAdd, List.length_append, List.length_replicate]
      have : ((cnt0.toNat : ℤ)) = cnt0 := Int.toNat_of_nonneg hnn'
      push_cast
      omega

/-- With capping disabled and nonnegative counts, the pass keeps the
counter-value sum equal to the length of sequence A. -/
theorem processRows_sum (cfg : Config) (rng : ℕ → ℚ) (hcap0 : cfg.cap = 0) :
    ∀ (rows : List (List String)) (st st' : PassState),
      (∀ row ∈ rows, rowCountNonneg row) →
      processRows cfg rng st rows = .ok st' →
      sumV st'.freq - st'.clients_triehh.length =
        sumV st.freq - st.clients_triehh.length := by
  intro rows
  induction rows with
  | nil =>
    intro st st' _ h
    injection h with h
    subst h
    rfl
  | cons row rest ih =>
    intro st st' hnn h
    rw [processRows] at h
    cases hrow : processRow cfg rng row st with
    | error e => rw [hrow] at h; exact absurd h (by simp)
    | ok st1 =>
      rw [hrow] at h
      have h1 := processRow_sum cfg rng row st st1 hcap0 (hnn row (by simp)) hrow
      have h2 := ih st1 st' (fun r hr => hnn r (by simp [hr])) h
      rw [h2, h1]

/-- With a negative cap, every record contributes nothing: the clamped
count is negative, so the occurrence loop runs zero times. -/
theorem processRow_neg (cfg : Config) (rng : ℕ → ℚ) (row : List String)
    (st st' : PassState) (hneg : cfg.cap < 0)
    (h : processRow cfg rng row st = .ok st') :
    st' = st := by
  rcases row with _ | ⟨a, _ | ⟨b, _ | ⟨c, _ | ⟨d, _ | ⟨e, row⟩⟩⟩⟩⟩
  all_goals
    first
    | (injection h with h
       exact h.symm)
    | skip
  simp only [processRow] at h
  by_cases hfil : cfg.keep_type ≠ "" ∧ c ≠ cfg.keep_type
  · rw [if_pos hfil] at h
    injection h with h
    exact h.symm
  · rw [if_neg hfil] at h
    cases hp : pyInt d with
    | none => rw [hp] at h; exact absurd h (by simp)
    | some cnt0 =>
      rw [hp] at h
      dsimp only at h
      have hcap : cfg.cap ≠ 0 := by omega
      rw [if_pos hcap] at h
      have hz : (if cfg.cap ≠ 0 ∧ cfg.cap < cnt0 then cfg.cap else cnt0).toNat = 0 := by
        by_cases hc : cfg.cap ≠ 0 ∧ cfg.cap < cnt0
        · rw [if_pos hc]
          omega
        · rw [if_neg hc]
          push_neg at hc
          have := hc hcap
          omega
      rw [hz] at h
      injection h with h
      exact h.symm

/-- With a negative cap, the whole pass leaves the state unchanged. -/
theorem processRows_neg (cfg : Config) (rng : ℕ → ℚ) (hneg : cfg.cap < 0) :
    ∀ (rows : List (List String)) (st st' : PassState),
      processRows cfg rng st rows = .ok st' →
      st' = st := by
  intro rows
  induction rows with
  | nil =>
    intro st st' h
    injection h with h
    exact h.symm
  | cons row rest ih =>
    intro st st' h
    rw [processRows] at h
    cases hrow : processRow cfg rng row st with
    | error e => rw [hrow] at h; exact absurd h (by simp)
    | ok st1 =>
      rw [hrow] at h
      rw [ih st1 st' h, processRow_neg cfg rng row st st1 hneg hrow]

/-- Summing a table whose values were all divided by T equals the summed
values divided by T. -/
theorem sumQ_map_div (m : Counter) (T : ℚ) :
    sumQ (m.map (fun p => (p.1, (p.2 : ℚ) / T))) = (sumV m : ℚ) / T := by
  induction m with
  | nil => simp [sumQ, sumV]
  | cons p rest ih =>
    simp only [sumQ, sumV, List.map_cons, List.sum_cons] at ih ⊢
    rw [ih]
    push_cast
    rw [add_div]

/-- C2: for every single-occurrence request for token t with cap k, the
sampler behaves exactly as the spec's algorithm: while the counter is at
or above k, a uniform draw below k/(k+1) rejects the occurrence with no
state change; otherwise the counter is decremented by 1 and the
while-condition re-checked; when the loop exits with counter below k, the
counter is incremented by 1 and the occurrence accepted (True).  Stated
as: the code's `reservoir_extend` coincides with `specThinner`, the
sampler transcribed from the spec's words. -/
theorem claim2_sampler_refines_spec (container : Counter) (elem : String)
    (k : ℤ) (rng : ℕ → ℚ) (pos : ℕ) :
    reservoir_extend container elem k rng pos =
      specThinner container elem k rng pos := by
  induction container, elem, k, rng, pos using reservoir_extend.induct with
  | case1 container elem k rng pos h hd =>
    rw [reservoir_extend_reject _ _ _ _ _ h hd,
      specThinner_reject _ _ _ _ _ h hd]
  | case2 container elem k rng pos h hd ih =>
    rw [reservoir_extend_step _ _ _ _ _ h hd,
      specThinner_step _ _ _ _ _ h hd, ih]
  | case3 container elem k rng pos h =>
    rw [reservoir_extend_accept _ _ _ _ _ (not_le.mp h),
      specThinner_accept _ _ _ _ _ (not_le.mp h)]

/-- C1 (counterexample): after processing two count-1 records for the
same token with cap 1 (second draw 1/2, so the sampler decrements and
then re-increments, accepting while the counter stays at 1), the client
sequences have length 2 but the counter values sum to 1 — refuting the
claimed equality length(clients_triehh) = sum(freq.values()). -/
theorem claim1_counterexample :
    processRows ⟨16, 1, "link"⟩ rngHalf initState
        [["x", "a", "link", "1"], ["y", "a", "link", "1"]] =
      .ok ⟨[("a", 1)], ["a$", "a$"],
        ["a$$$$$$$$$$$$$$$", "a$$$$$$$$$$$$$$$"], 1⟩ ∧
    ¬ (((["a$", "a$"] : List String).length : ℤ) =
        sumV [(("a" : String), (1 : ℤ))]) := by
  have hp : pyInt "1" = some 1 := by decide
  have h1 : reservoir_extend [] "a" 1 rngHalf 0 = (true, [("a", 1)], 0) := by
    rw [reservoir_extend_accept _ _ _ _ _ (by decide)]
    decide
  have h2 : reservoir_extend [("a", 1)] "a" 1 rngHalf 0 = (true, [("a", 1)], 1) := by
    rw [reservoir_extend_step _ _ _ _ _ (by decide) (by norm_num [rngHalf])]
    rw [show cAdd [(("a" : String), (1 : ℤ))] "a" (-1) = [("a", 0)] from by decide]
    rw [reservoir_extend_accept _ _ _ _ _ (by decide)]
    decide
  have hc : (if ((1:ℤ) ≠ 0 ∧ (1:ℤ) < 1) then (1:ℤ) else 1) = 1 := by norm_num
  refine ⟨?_, by decide⟩
  simp only [processRows, processRow, occLoop, initState, hp, hc, h1, h2]
  norm_num
  simp only [h2]
  decide

/-- C1 (amended): for every processed input prefix, the two client
sequences have equal length (this length is the total number of emitted
occurrences), and the sum of the emission-counter values is at most that
length; the spec's claimed equality of the sum with the length fails once
the sampler accepts at the cap (see the counterexample). -/
theorem claim1_invariant (cfg : Config) (rng : ℕ → ℚ)
    (rows : List (List String)) (st' : PassState)
    (h : processRows cfg rng initState rows = .ok st') :
    st'.clients_triehh.length = st'.clients_sfp.length ∧
      sumV st'.freq ≤ st'.clients_triehh.length :=
  processRows_inv cfg rng rows initState st' h rfl (by simp [initState, sumV])

/-- Witness for C1 (amended) at a concrete one-record input with cap 1. -/
theorem claim1_witness :
    processRows ⟨16, 1, "link"⟩ rngHalf initState [["x", "a", "link", "1"]] =
        .ok ⟨[("a", 1)], ["a$"], ["a$$$$$$$$$$$$$$$"], 0⟩ ∧
      ((["a$"] : List String).length =
          (["a$$$$$$$$$$$$$$$"] : List String).length ∧
        sumV [(("a" : String), (1 : ℤ))] ≤ (["a$"] : List String).length) := by
  have hrun : processRows ⟨16, 1, "link"⟩ rngHalf initState [["x", "a", "link", "1"]] =
      .ok ⟨[("a", 1)], ["a$"], ["a$$$$$$$$$$$$$$$"], 0⟩ := by
    have hp : pyInt "1" = some 1 := by decide
    have h1 : reservoir_extend [] "a" 1 rngHalf 0 = (true, [("a", 1)], 0) := by
      rw [reservoir_extend_accept _ _ _ _ _ (by decide)]
      decide
    have hc : (if ((1:ℤ) ≠ 0 ∧ (1:ℤ) < 1) then (1:ℤ) else 1) = 1 := by norm_num
    simp only [processRows, processRow, occLoop, initState, hp, hc, h1]
    norm_num
    decide
  exact ⟨hrun, claim1_invariant _ _ _ _ hrun⟩

/-- C3: with capping enabled and cap k > 0, every token's counter value
stays at or below k after any processed prefix; with capping disabled
(cap = 0), each token's final counter value is the exact cumulative count
over surviving records whose current-state field is that token. -/
theorem claim3_cap_invariant (cfg : Config) (rng : ℕ → ℚ)
    (rows : List (List String)) (st' : PassState)
    (h : processRows cfg rng initState rows = .ok st') :
    (0 < cfg.cap → ∀ t, cGet st'.freq t ≤ cfg.cap) ∧
      (cfg.cap = 0 → ∀ t, cGet st'.freq t = exactCount cfg rows t) := by
  constructor
  · intro hpos
    refine processRows_le cfg rng hpos rows initState st' h ?_
    intro t
    simp only [initState, cGet]
    omega
  · intro h0 t
    have hx := processRows_exact cfg rng h0 rows initState st' h t
    simpa [initState, cGet] using hx

/-- Witness for C3 at concrete inputs: a cap-1 run for the bound and a
cap-0 run for the exact count. -/
theorem claim3_witness :
    (processRows ⟨16, 1, "link"⟩ rngHalf initState [["x", "a", "link", "1"]] =
        .ok ⟨[("a", 1)], ["a$"], ["a$$$$$$$$$$$$$$$"], 0⟩ ∧
      cGet [(("a" : String), (1 : ℤ))] "a" ≤ 1) ∧
    (processRows ⟨4, 0, "link"⟩ rngHalf initState [["x", "a", "link", "2"]] =
        .ok ⟨[("a", 2)], ["a$", "a$"], ["a$$$", "a$$$"], 0⟩ ∧
      cGet [(("a" : String), (2 : ℤ))] "a" =
        exactCount ⟨4, 0, "link"⟩ [["x", "a", "link", "2"]] "a") := by
  have hrun1 : processRows ⟨16, 1, "link"⟩ rngHalf initState [["x", "a", "link", "1"]] =
      .ok ⟨[("a", 1)], ["a$"], ["a$$$$$$$$$$$$$$$"], 0⟩ := by
    have hp : pyInt "1" = some 1 := by decide
    have h1 : reservoir_extend [] "a" 1 rngHalf 0 = (true, [("a", 1)], 0) := by
      rw [reservoir_extend_accept _ _ _ _ _ (by decide)]
      decide
    have hc : (if ((1:ℤ) ≠ 0 ∧ (1:ℤ) < 1) then (1:ℤ) else 1) = 1 := by norm_num
    simp only [processRows, processRow, occLoop, initState, hp, hc, h1]
    norm_num
    decide
  have hrun2 : processRows ⟨4, 0, "link"⟩ rngHalf initState [["x", "a", "link", "2"]] =
      .ok ⟨[("a", 2)], ["a$", "a$"], ["a$$$", "a$$$"], 0⟩ := by decide
  exact ⟨⟨hrun1, (claim3_cap_invariant _ _ _ _ hrun1).1 (by norm_num) "a"⟩,
    ⟨hrun2, (claim3_cap_invariant _ _ _ _ hrun2).2 rfl "a"⟩⟩

/-- C4 (counterexample): in the two-record cap-1 run, the pass succeeds
with total_emitted = 2 > 0, yet the output frequency values sum to 1/2,
not 1 — refuting the claimed normalization whenever total_emitted > 0. -/
theorem claim4_counterexample :
    preprocess ⟨16, 1, "link"⟩ rngHalf
        [["x", "a", "link", "1"], ["y", "a", "link", "1"]] =
      .ok ⟨[("a", 1)], ["a$", "a$"],
        ["a$$$$$$$$$$$$$$$", "a$$$$$$$$$$$$$$$"], [("a", 1/2)]⟩ ∧
    sumQ [(("a" : String), (1 : ℚ)/2)] ≠ 1 ∧
    (0 : ℕ) < (["a$", "a$"] : List String).length := by
  have hp : pyInt "1" = some 1 := by decide
  have h1 : reservoir_extend [] "a" 1 rngHalf 0 = (true, [("a", 1)], 0) := by
    rw [reservoir_extend_accept _ _ _ _ _ (by decide)]
    decide
  have h2 : reservoir_extend [("a", 1)] "a" 1 rngHalf 0 = (true, [("a", 1)], 1) := by
    rw [reservoir_extend_step _ _ _ _ _ (by decide) (by norm_num [rngHalf])]
    rw [show cAdd [(("a" : String), (1 : ℤ))] "a" (-1) = [("a", 0)] from by decide]
    rw [reservoir_extend_accept _ _ _ _ _ (by decide)]
    decide
  have hc : (if ((1:ℤ) ≠ 0 ∧ (1:ℤ) < 1) then (1:ℤ) else 1) = 1 := by norm_num
  have hrun : processRows ⟨16, 1, "link"⟩ rngHalf initState
      [["x", "a", "link", "1"], ["y", "a", "link", "1"]] =
      .ok ⟨[("a", 1)], ["a$", "a$"],
        ["a$$$$$$$$$$$$$$$", "a$$$$$$$$$$$$$$$"], 1⟩ := by
    simp only [processRows, processRow, occLoop, initState, hp, hc, h1, h2]
    norm_num
    simp only [h2]
    decide
  refine ⟨?_, by norm_num [sumQ], by norm_num⟩
  simp only [preprocess, hrun]
  norm_num

/-- C4 (amended): whenever capping is disabled, every record's count
field is nonnegative, and total_emitted > 0, the output frequency values
sum to exactly 1. -/
theorem claim4_normalization (cfg : Config) (rng : ℕ → ℚ)
    (rows : List (List String)) (out : Output) (hcap0 : cfg.cap = 0)
    (hnn : ∀ row ∈ rows, rowCountNonneg row)
    (h : preprocess cfg rng rows = .ok out)
    (hpos : 0 < out.clients_triehh.length) :
    sumQ out.rel_freq = 1 := by
  unfold preprocess at h
  cases hr : processRows cfg rng initState rows with
  | error e => rw [hr] at h; exact absurd h (by simp)
  | ok st =>
    rw [hr] at h
    dsimp only at h
    by_cases hz : st.clients_triehh.length = 0 ∧ st.freq ≠ []
    · rw [if_pos hz] at h; exact absurd h (by simp)
    · rw [if_neg hz] at h
      injection h with h
      subst h
      dsimp only at hpos ⊢
      rw [sumQ_map_div]
      have hsum := processRows_sum cfg rng hcap0 rows initState st hnn hr
      have h0 : sumV initState.freq - (initState.clients_triehh.length : ℤ) = 0 := by
        decide
      have heq : sumV st.freq = (st.clients_triehh.length : ℤ) := by omega
      rw [heq]
      push_cast
      exact div_self (by exact_mod_cast hpos.ne')

/-- Witness for C4 (amended) at a concrete cap-0 input. -/
theorem claim4_witness :
    preprocess ⟨4, 0, "link"⟩ rngHalf [["x", "a", "link", "2"]] =
        .ok ⟨[("a", 2)], ["a$", "a$"], ["a$$$", "a$$$"], [("a", 1)]⟩ ∧
      sumQ [(("a" : String), (1 : ℚ))] = 1 := by
  have hrun : processRows ⟨4, 0, "link"⟩ rngHalf initState [["x", "a", "link", "2"]] =
      .ok ⟨[("a", 2)], ["a$", "a$"], ["a$$$", "a$$$"], 0⟩ := by decide
  have hpre : preprocess ⟨4, 0, "link"⟩ rngHalf [["x", "a", "link", "2"]] =
      .ok ⟨[("a", 2)], ["a$", "a$"], ["a$$$", "a$$$"], [("a", 1)]⟩ := by
    simp only [preprocess, hrun]
    norm_num
  refine ⟨hpre, claim4_normalization _ _ _ _ rfl ?_ hpre (by norm_num)⟩
  intro row hrow
  rw [List.mem_singleton] at hrow
  subst hrow
  decide

/-- C5: whenever the pass succeeds, the output frequency table is exactly
the emission counter with every value divided by the length of client
sequence A (total_emitted); it is built once, from the final counter. -/
theorem claim5_rel_freq (cfg : Config) (rng : ℕ → ℚ)
    (rows : List (List String)) (out : Output)
    (h : preprocess cfg rng rows = .ok out) :
    out.rel_freq = out.freq.map
      (fun p => (p.1, (p.2 : ℚ) / (out.clients_triehh.length : ℚ))) := by
  unfold preprocess at h
  cases hr : processRows cfg rng initState rows with
  | error e => rw [hr] at h; exact absurd h (by simp)
  | ok st =>
    rw [hr] at h
    dsimp only at h
    by_cases hz : st.clients_triehh.length = 0 ∧ st.freq ≠ []
    · rw [if_pos hz] at h; exact absurd h (by simp)
    · rw [if_neg hz] at h
      injection h with h
      subst h
      rfl

/-- Witness for C5 at a concrete cap-0 input. -/
theorem claim5_witness :
    preprocess ⟨4, 0, "link"⟩ rngHalf [["x", "a", "link", "2"]] =
        .ok ⟨[("a", 2)], ["a$", "a$"], ["a$$$", "a$$$"], [("a", 1)]⟩ ∧
      ([(("a" : String), (1 : ℚ))] =
        ([(("a" : String), (2 : ℤ))]).map
          (fun p => (p.1, (p.2 : ℚ) / ((["a$", "a$"] : List String).length : ℚ)))) := by
  have hrun : processRows ⟨4, 0, "link"⟩ rngHalf initState [["x", "a", "link", "2"]] =
      .ok ⟨[("a", 2)], ["a$", "a$"], ["a$$$", "a$$$"], 0⟩ := by decide
  have hpre : preprocess ⟨4, 0, "link"⟩ rngHalf [["x", "a", "link", "2"]] =
      .ok ⟨[("a", 2)], ["a$", "a$"], ["a$$$", "a$$$"], [("a", 1)]⟩ := by
    simp only [preprocess, hrun]
    norm_num
  exact ⟨hpre, claim5_rel_freq _ _ _ _ hpre⟩

/-- C6 (counterexample): a surviving record with count 0 under disabled
capping yields zero emitted occurrences with a non-empty counter, and the
program fails with the generic arithmetic ZeroDivisionError at the
relative-frequency computation — not with a clear, specific diagnostic. -/
theorem claim6_counterexample :
    preprocess ⟨16, 0, "link"⟩ rngHalf [["x", "a", "link", "0"]] =
      .error .zeroDivisionError := by
  have hrun : processRows ⟨16, 0, "link"⟩ rngHalf initState [["x", "a", "link", "0"]] =
      .ok ⟨[("a", 0)], [], [], 0⟩ := by decide
  simp only [preprocess, hrun]
  norm_num

/-- C6 (amended): when zero occurrences were accepted, the run fails with
a ZeroDivisionError at the relative-frequency computation if the counter
is non-empty, and completes normally with empty outputs (no diagnostic at
all) if the counter is empty. -/
theorem claim6_zero_emitted (cfg : Config) (rng : ℕ → ℚ)
    (rows : List (List String)) (st : PassState)
    (h : processRows cfg rng initState rows = .ok st)
    (h0 : st.clients_triehh.length = 0) :
    (st.freq ≠ [] → preprocess cfg rng rows = .error .zeroDivisionError) ∧
      (st.freq = [] →
        preprocess cfg rng rows =
          .ok ⟨st.freq, st.clients_triehh, st.clients_sfp, []⟩) := by
  constructor
  · intro hne
    unfold preprocess
    rw [h]
    dsimp only
    rw [if_pos ⟨h0, hne⟩]
  · intro hemp
    unfold preprocess
    rw [h]
    dsimp only
    rw [if_neg (by simp [hemp])]
    simp [hemp]

/-- Witness for C6 (amended): the zero-count record hits the
ZeroDivisionError branch, and the empty input completes with empty
outputs. -/
theorem claim6_witness :
    (processRows ⟨16, 0, "link"⟩ rngHalf initState [["x", "a", "link", "0"]] =
        .ok ⟨[("a", 0)], [], [], 0⟩ ∧
      preprocess ⟨16, 0, "link"⟩ rngHalf [["x", "a", "link", "0"]] =
        .error .zeroDivisionError) ∧
    (processRows ⟨16, 0, "link"⟩ rngHalf initState [] = .ok initState ∧
      preprocess ⟨16, 0, "link"⟩ rngHalf [] = .ok ⟨[], [], [], []⟩) := by
  have hrun1 : processRows ⟨16, 0, "link"⟩ rngHalf initState [["x", "a", "link", "0"]] =
      .ok ⟨[("a", 0)], [], [], 0⟩ := by decide
  have hrun2 : processRows ⟨16, 0, "link"⟩ rngHalf initState [] = .ok initState := rfl
  refine ⟨⟨hrun1, (claim6_zero_emitted _ _ _ _ hrun1 (by decide)).1 (by decide)⟩,
    ⟨hrun2, ?_⟩⟩
  have hx := (claim6_zero_emitted _ _ _ _ hrun2 (by decide)).2 rfl
  simpa [initState] using hx

/-- C7 (counterexample): with cap = -1 (capping requested, cap ≤ 0) the
program reports no configuration error at all: the run over a surviving
record completes normally, with empty outputs. -/
theorem claim7_counterexample :
    preprocess ⟨16, -1, "link"⟩ rngHalf [["x", "a", "link", "5"]] =
      .ok ⟨[], [], [], []⟩ := by
  have hrun : processRows ⟨16, -1, "link"⟩ rngHalf initState [["x", "a", "link", "5"]] =
      .ok initState := by decide
  simp only [preprocess, hrun]
  norm_num [initState]

/-- C7 (amended): the code performs no validation of the cap; with a
negative cap (capping treated as enabled), every surviving record's count
is clamped to a negative value and contributes nothing, so whenever every
count field parses the run completes normally with empty outputs and no
error is reported. -/
theorem claim7_no_validation (cfg : Config) (rng : ℕ → ℚ)
    (rows : List (List String)) (st : PassState) (hneg : cfg.cap < 0)
    (h : processRows cfg rng initState rows = .ok st) :
    preprocess cfg rng rows = .ok ⟨[], [], [], []⟩ := by
  have hst : st = initState := processRows_neg cfg rng hneg rows initState st h
  subst hst
  unfold preprocess
  rw [h]
  dsimp only
  rw [if_neg (by simp [initState])]
  simp [initState]

/-- Witness for C7 (amended) at a concrete negative-cap input. -/
theorem claim7_witness :
    processRows ⟨16, -1, "link"⟩ rngHalf initState [["x", "a", "link", "5"]] =
        .ok initState ∧
      preprocess ⟨16, -1, "link"⟩ rngHalf [["x", "a", "link", "5"]] =
        .ok ⟨[], [], [], []⟩ := by
  have hrun : processRows ⟨16, -1, "link"⟩ rngHalf initState [["x", "a", "link", "5"]] =
      .ok initState := by decide
  exact ⟨hrun, claim7_no_validation _ _ _ _ (by norm_num) hrun⟩

/-- C8 (counterexample): the terminator appended by Encoding A and the
filler used by Encoding B are not distinct — they are the same
character. -/
theorem claim8_counterexample : end_symbol = pad_symbol := rfl

/-- C8 (amended): the terminator appended by `add_end_symbol` and the
filler used by `truncate_or_pad` are both the dollar character (so they
coincide rather than differ); the encoders behave as on the spec's
examples. -/
theorem claim8_same_symbol :
    end_symbol = pad_symbol ∧ pad_symbol = '$' ∧
      add_end_symbol "Apollo" = "Apollo$" ∧
      truncate_or_pad "Apollo" 4 = "Apol" ∧
      truncate_or_pad "Io" 4 = "Io$$" := by
  refine ⟨rfl, rfl, ?_, ?_, ?_⟩ <;> decide

/-- C9: two runs of the transform on the same record stream with the same
configuration and the same seed — i.e. with pointwise-equal pseudo-random
streams, since the stream is a function of the seed alone — produce
identical clients_triehh, clients_sfp and frequency outputs. -/
theorem claim9_determinism (cfg : Config) (r1 r2 : ℕ → ℚ)
    (rows : List (List String)) (hseed : ∀ n, r1 n = r2 n) :
    preprocess cfg r1 rows = preprocess cfg r2 rows := by
  have hr : r1 = r2 := funext hseed
  rw [hr]

/-- Witness for C9 at a concrete input with two syntactically different
but pointwise-equal random streams. -/
theorem claim9_witness :
    preprocess ⟨16, 5000, "link"⟩ (fun _ => 1/2) [["x", "a", "link", "1"]] =
      preprocess ⟨16, 5000, "link"⟩ (fun _ => 2/4) [["x", "a", "link", "1"]] :=
  claim9_determinism _ _ _ _ (fun n => by norm_num)

/-- C10: a record with exactly 4 fields and matching kind whose count
field is not a decimal integer string aborts the pass with the ValueError
of the integer conversion, while records with a wrong field count or a
non-matching kind are silently skipped. -/
theorem claim10_abort_on_bad_count :
    preprocess ⟨16, 5000, "link"⟩ rngHalf [["a", "b", "link", "xyz"]] =
        .error .valueError ∧
      preprocess ⟨16, 5000, "link"⟩ rngHalf
          [["a", "b", "c"], ["a", "b", "other", "xyz"]] =
        .ok ⟨[], [], [], []⟩ := by
  constructor
  · have hrun : processRows ⟨16, 5000, "link"⟩ rngHalf initState
        [["a", "b", "link", "xyz"]] = .error .valueError := by decide
    simp only [preprocess, hrun]
  · have hrun : processRows ⟨16, 5000, "link"⟩ rngHalf initState
        [["a", "b", "c"], ["a", "b", "other", "xyz"]] = .ok initState := by decide
    simp only [preprocess, hrun]
    norm_num [initState]

end Clickstream
